import Mathlib

/-!
Formal model of the KPI data-aggregator ingestion and storage core.

The development shallowly embeds the storage layer of the repository:

* `src/core/database.py` — the SQLite-backed metric store (`kpi_snapshots`
  table with its unique natural-key index, `upsert_metrics`, `query_all`,
  `query_by_date`, `row_count`, `cleanup_old_data`, `migrate_csv_to_db`,
  and the scrape log with `log_scrape`, `get_scrape_log`,
  `get_latest_scrape_status`, `has_historical_data`);
* `src/common_utils.py` — the legacy wide-format CSV ingestion path
  (`process_worker_result`, `update_snapshot`, `get_existing_columns`,
  `update_data_dictionary`) and the long-format auto-documentation engine
  (`update_data_dictionary_long`).

A store is a list of rows in insertion order; SQLite surrogate ids are list
positions.  TEXT comparison in SQLite uses the BINARY collation (bytewise
comparison of UTF-8), which coincides with lexicographic comparison of the
Unicode code-point sequences; it is embedded below as `charListLt` on
`List Char` so that all comparisons evaluate inside the kernel.
-/

namespace KpiAgg

/-! ## Code-point comparison (SQLite BINARY collation, Python `sorted`) -/

/-- Strict bytewise (code-point) comparison of two code-point lists. -/
def charListLt : List Char → List Char → Bool
  | _, [] => false
  | [], _ :: _ => true
  | a :: as, b :: bs =>
    decide (a.val.toNat < b.val.toNat) ||
      (decide (a.val.toNat = b.val.toNat) && charListLt as bs)

/-- Non-strict bytewise comparison. -/
def charListLe (a b : List Char) : Bool := !(charListLt b a)

/-- Strict comparison of SQLite TEXT values. -/
def strLtB (a b : String) : Bool := charListLt a.data b.data

/-- Non-strict comparison of SQLite TEXT values. -/
def strLeB (a b : String) : Bool := charListLe a.data b.data

theorem charListLt_irrefl : ∀ l : List Char, charListLt l l = false := by
  intro l
  induction l with
  | nil => rfl
  | cons a as ih => simp [charListLt, ih]

theorem charListLt_trans : ∀ {a b c : List Char},
    charListLt a b = true → charListLt b c = true → charListLt a c = true := by
  intro a
  induction a with
  | nil =>
    intro b c hab hbc
    cases b with
    | nil => simp [charListLt] at hab
    | cons y bs =>
      cases c with
      | nil => simp [charListLt] at hbc
      | cons z cs => simp [charListLt]
  | cons x as ih =>
    intro b c hab hbc
    cases b with
    | nil => simp [charListLt] at hab
    | cons y bs =>
      cases c with
      | nil => simp [charListLt] at hbc
      | cons z cs =>
        simp only [charListLt, Bool.or_eq_true, Bool.and_eq_true,
          decide_eq_true_eq] at hab hbc ⊢
        rcases hab with h1 | ⟨h1, h1r⟩ <;> rcases hbc with h2 | ⟨h2, h2r⟩
        · exact Or.inl (Nat.lt_trans h1 h2)
        · exact Or.inl (h2 ▸ h1)
        · exact Or.inl (h1 ▸ h2)
        · exact Or.inr ⟨h1.trans h2, ih h1r h2r⟩

theorem charListLt_conn : ∀ {a b : List Char},
    charListLt a b = false → charListLt b a = false → a = b := by
  intro a
  induction a with
  | nil =>
    intro b hab _
    cases b with
    | nil => rfl
    | cons y bs => simp [charListLt] at hab
  | cons x as ih =>
    intro b hab hba
    cases b with
    | nil => simp [charListLt] at hba
    | cons y bs =>
      have hab2 : ¬ (charListLt (x :: as) (y :: bs) = true) := by simp [hab]
      have hba2 : ¬ (charListLt (y :: bs) (x :: as) = true) := by simp [hba]
      simp only [charListLt, Bool.or_eq_true, Bool.and_eq_true,
        decide_eq_true_eq, not_or, not_and] at hab2 hba2
      obtain ⟨hxy, hxr⟩ := hab2
      obtain ⟨hyx, hyr⟩ := hba2
      have hval : x.val.toNat = y.val.toNat := by omega
      have hx : x = y := Char.ext (UInt32.ext hval)
      subst hx
      have haseq : as = bs := by
        refine ih ?_ ?_
        · have := hxr rfl
          cases hc : charListLt as bs
          · rfl
          · exact absurd hc this
        · have := hyr rfl
          cases hc : charListLt bs as
          · rfl
          · exact absurd hc this
      rw [haseq]

theorem charListLe_total (a b : List Char) :
    charListLe a b = true ∨ charListLe b a = true := by
  unfold charListLe
  cases hx : charListLt b a with
  | false => exact Or.inl (by simp)
  | true =>
    refine Or.inr ?_
    cases hy : charListLt a b with
    | false => simp
    | true =>
      have h := charListLt_trans hy hx
      rw [charListLt_irrefl] at h
      exact absurd h Bool.false_ne_true

theorem charListLe_trans {a b c : List Char}
    (hab : charListLe a b = true) (hbc : charListLe b c = true) :
    charListLe a c = true := by
  unfold charListLe at hab hbc ⊢
  rw [Bool.not_eq_true'] at hab hbc ⊢
  cases hx : charListLt b c with
  | true =>
    cases hy : charListLt c a with
    | true =>
      have h := charListLt_trans hx hy
      rw [hab] at h
      exact absurd h Bool.false_ne_true
    | false => rfl
  | false =>
    have hbceq : b = c := charListLt_conn hx hbc
    subst hbceq
    exact hab

/-! ## Insertion sort (the embedding of ORDER BY and Python `sorted`) -/

/-- Insert an element in front of the first element it is `le`-below. -/
def insertSorted (le : α → α → Bool) (a : α) : List α → List α
  | [] => [a]
  | b :: t => if le a b then a :: b :: t else b :: insertSorted le a t

/-- Insertion sort with a boolean comparison. -/
def sortBy (le : α → α → Bool) (l : List α) : List α :=
  l.foldr (insertSorted le) []

theorem insertSorted_perm (le : α → α → Bool) (a : α) :
    ∀ l : List α, (insertSorted le a l).Perm (a :: l) := by
  intro l
  induction l with
  | nil => simp [insertSorted]
  | cons b t ih =>
    by_cases h : le a b = true
    · simp [insertSorted, h]
    · have h2 : insertSorted le a (b :: t) = b :: insertSorted le a t := by
        simp [insertSorted, h]
      rw [h2]
      exact (ih.cons b).trans (List.Perm.swap a b t)

theorem sortBy_perm (le : α → α → Bool) (l : List α) :
    (sortBy le l).Perm l := by
  induction l with
  | nil => simp [sortBy]
  | cons a t ih =>
    have h1 : sortBy le (a :: t) = insertSorted le a (sortBy le t) := rfl
    rw [h1]
    exact (insertSorted_perm le a (sortBy le t)).trans (ih.cons a)

theorem mem_sortBy {le : α → α → Bool} {l : List α} {x : α} :
    x ∈ sortBy le l ↔ x ∈ l :=
  (sortBy_perm le l).mem_iff

theorem insertSorted_sorted (le : α → α → Bool)
    (htot : ∀ a b, le a b = true ∨ le b a = true)
    (htr : ∀ a b c, le a b = true → le b c = true → le a c = true)
    (a : α) (l : List α) (hl : l.Pairwise (fun x y => le x y = true)) :
    (insertSorted le a l).Pairwise (fun x y => le x y = true) := by
  induction l with
  | nil => simp [insertSorted]
  | cons b t ih =>
    rcases List.pairwise_cons.mp hl with ⟨hb, ht⟩
    by_cases h : le a b = true
    · have h2 : insertSorted le a (b :: t) = a :: b :: t := by
        simp [insertSorted, h]
      rw [h2]
      refine List.pairwise_cons.mpr ⟨?_, hl⟩
      intro x hx
      rcases List.mem_cons.mp hx with rfl | hmem
      · exact h
      · exact htr a b x h (hb x hmem)
    · have h2 : insertSorted le a (b :: t) = b :: insertSorted le a t := by
        simp [insertSorted, h]
      rw [h2]
      refine List.pairwise_cons.mpr ⟨?_, ih ht⟩
      intro x hx
      have hx2 := (insertSorted_perm le a t).mem_iff.mp hx
      rcases List.mem_cons.mp hx2 with rfl | hmem
      · rcases htot x b with hxb | hbx
        · exact absurd hxb h
        · exact hbx
      · exact hb x hmem

theorem sortBy_sorted (le : α → α → Bool)
    (htot : ∀ a b, le a b = true ∨ le b a = true)
    (htr : ∀ a b c, le a b = true → le b c = true → le a c = true)
    (l : List α) :
    (sortBy le l).Pairwise (fun x y => le x y = true) := by
  induction l with
  | nil => simp [sortBy]
  | cons a t ih => exact insertSorted_sorted le htot htr a (sortBy le t) ih

/-! ## Metric store data model (`src/core/database.py`)

The `kpi_snapshots` table: one `Row` per stored observation.  The surrogate
`id` column is the position in the list; `_CREATE_INDEX` declares the unique
index on `(date, source, metric_title, category, sub_category)`. -/

structure Row where
  date : String
  timestamp : String
  source : String
  metric_title : String
  category : String
  sub_category : String
  value : String
deriving DecidableEq

/-- The natural key of the unique index `idx_kpi_dedup`. -/
abbrev RowKey := String × String × String × String × String

/-- The tuple covered by the unique index. -/
def Row.key (r : Row) : RowKey :=
  (r.date, r.source, r.metric_title, r.category, r.sub_category)

/-- One element of the `data` list handed to `upsert_metrics`: the fields of
the Python dict after the `item.get(...)` defaulting and `str(...)` coercion
(missing `metric_title` / `category` / `sub_category` / `value` all default
to the empty string). -/
structure Obs where
  metric_title : String
  category : String
  sub_category : String
  value : String
deriving DecidableEq

/-- The row tuple built for one observation inside `upsert_metrics`:
`(current_date, ts, source_name, metric_title, category, sub_category,
str(value))`. -/
def Obs.toRow (src d ts : String) (o : Obs) : Row :=
  ⟨d, ts, src, o.metric_title, o.category, o.sub_category, o.value⟩

/-- The `DO UPDATE SET timestamp = excluded.timestamp, value =
excluded.value` clause of `_UPSERT_SQL`, applied to a row whose key collides
with the incoming row `r`. -/
def updRow (r x : Row) : Row :=
  if x.key = r.key then { x with timestamp := r.timestamp, value := r.value }
  else x

/-- Whether some stored row already occupies key `k` of the unique index. -/
def hasKey (s : List Row) (k : RowKey) : Bool :=
  s.any (fun x => decide (x.key = k))

/-- One execution of `_UPSERT_SQL` (`INSERT ... ON CONFLICT (date, source,
metric_title, category, sub_category) DO UPDATE SET ...`): on a key
collision the conflicting row gets the new `timestamp` and `value` in
place, otherwise the row is appended. -/
def upsertRow (s : List Row) (r : Row) : List Row :=
  if hasKey s r.key then s.map (updRow r) else s ++ [r]

/-- `conn.executemany(_UPSERT_SQL, rows)`: the statements run sequentially
in one transaction. -/
def upsertRows (s : List Row) (l : List Row) : List Row :=
  l.foldl upsertRow s

/-- `upsert_metrics(source_name, data, current_date)`.  The write timestamp
`ts` is computed once per call (`datetime.now()` at entry); the empty-batch
early return coincides with folding over the empty list. -/
def upsert_metrics (src : String) (data : List Obs) (d ts : String)
    (s : List Row) : List Row :=
  upsertRows s (data.map (Obs.toRow src d ts))

/-- `init_db()` on a fresh database file: the created `kpi_snapshots` table
is empty. -/
def init_db : List Row := []

/-- `migrate_csv_to_db(csv_path)`: each parsed CSV row (with `category` /
`sub_category` filled with the empty string when absent and every field
passed through `str(...)`) is fed to `_UPSERT_SQL` in file order.  The
parsing itself is outside the model: `csv` is the list of parsed rows, which
is the same list on every run over the same file.  The `imported` counter
returned by the Python function is not modelled. -/
def migrate_csv_to_db (csv : List Row) (s : List Row) : List Row :=
  upsertRows s csv

/-- `row_count()`: `SELECT COUNT(*) FROM kpi_snapshots`. -/
def row_count (s : List Row) : Nat := s.length

/-- `cleanup_old_data`: `DELETE FROM kpi_snapshots WHERE date < cutoff`
followed by `VACUUM` exactly when at least one row was deleted.  `cutoff`
is the string `(datetime.now() - timedelta(days=days_to_keep)).strftime`
computed by the caller environment; the Boolean component records whether
the `VACUUM` storage-reclamation pass ran. -/
def cleanup_old_data (cutoff : String) (s : List Row) : List Row × Bool :=
  (s.filter (fun r => !(strLtB r.date cutoff)),
   decide (s.countP (fun r => strLtB r.date cutoff) ≠ 0))

/-- The `ORDER BY date, source, metric_title` comparison. -/
def rowLE (a b : Row) : Bool :=
  strLtB a.date b.date ||
    (decide (a.date = b.date) &&
      (strLtB a.source b.source ||
        (decide (a.source = b.source) && strLeB a.metric_title b.metric_title)))

/-- `query_all()`: the whole table ordered by `(date, source,
metric_title)`. -/
def query_all (s : List Row) : List Row := sortBy rowLE s

/-- The `WHERE date BETWEEN ? AND ?` predicate (inclusive on both ends). -/
def inRange (startDate endDate : String) (r : Row) : Bool :=
  strLeB startDate r.date && strLeB r.date endDate

/-- `query_by_date(start_date, end_date=None)`: `end_date` defaults to
`start_date`; rows in the inclusive range, same ordering as `query_all`. -/
def query_by_date (startDate : String) (endDate : Option String)
    (s : List Row) : List Row :=
  let e := endDate.getD startDate
  sortBy rowLE (s.filter (inRange startDate e))

/-- The invariant enforced by the unique index `idx_kpi_dedup`. -/
def KeysUnique (s : List Row) : Prop :=
  s.Pairwise (fun a b => a.key ≠ b.key)

/-- The `(value, timestamp)` pairs of the rows stored under key `k`. -/
def getVal (s : List Row) (k : RowKey) : List (String × String) :=
  (s.filter (fun r => decide (r.key = k))).map (fun r => (r.value, r.timestamp))

/-- Store states reachable through `init_db`, `upsert_metrics` and
`migrate_csv_to_db`. -/
inductive Reachable : List Row → Prop where
  | init : Reachable init_db
  | upsert (src : String) (data : List Obs) (d ts : String) {s : List Row} :
      Reachable s → Reachable (upsert_metrics src data d ts s)
  | migrate (csv : List Row) {s : List Row} :
      Reachable s → Reachable (migrate_csv_to_db csv s)

/-! ## Scrape log (`src/core/database.py`)

The `scrape_log` table in insertion order; the autoincrement `id` is the
list position, so `ORDER BY id DESC LIMIT 1` picks the last matching list
element.  Read operations wrap their queries in `try/except` blocks; the
`err` flags select the exceptional branch of the underlying database call,
and each operation returns the (unchanged) database state alongside its
result. -/

structure LogEntry where
  timestamp : String
  source : String
  report_label : String
  status : String
  log_rows : Int
  duration_s : Rat
  message : String
deriving DecidableEq

/-- The whole database file: the `kpi_snapshots` table plus the
`scrape_log` table. -/
structure DB where
  rows : List Row
  log : List LogEntry
deriving DecidableEq

/-- `log_scrape`: plain append of one audit record. -/
def log_scrape (db : DB) (e : LogEntry) : DB :=
  { db with log := db.log ++ [e] }

/-- `get_scrape_log(limit)`: `ORDER BY id DESC LIMIT ?` (newest first); on
any exception the empty list is returned. -/
def get_scrape_log (db : DB) (limit : Nat) (err : Bool) :
    List LogEntry × DB :=
  ((if err then [] else db.log.reverse.take limit), db)

/-- Entries that are the `MAX(id)` of their `(source, report_label)` group:
no later entry shares the pair. -/
def latestOnly : List LogEntry → List LogEntry
  | [] => []
  | e :: t =>
    if t.any (fun x => decide (x.source = e.source) &&
        decide (x.report_label = e.report_label))
    then latestOnly t
    else e :: latestOnly t

/-- Descending order on `timestamp` (the `ORDER BY s.timestamp DESC`). -/
def tsDescLE (a b : LogEntry) : Bool := strLeB b.timestamp a.timestamp

/-- `get_latest_scrape_status()`: the most recent entry of every
`(source, report_label)` group, ordered by timestamp descending; the empty
list on any exception. -/
def get_latest_scrape_status (db : DB) (err : Bool) :
    List LogEntry × DB :=
  ((if err then [] else sortBy tsDescLE (latestOnly db.log)), db)

/-- The `SELECT status ... WHERE source = ? AND report_label = ? ORDER BY id
DESC LIMIT 1` query: the last inserted entry for the pair, if any. -/
def lastMatch (src lbl : String) : List LogEntry → Option LogEntry
  | [] => none
  | e :: t =>
    match lastMatch src lbl t with
    | some u => some u
    | none => if e.source = src ∧ e.report_label = lbl then some e else none

/-- Status of the most recent scrape-log entry for `(src, lbl)`. -/
def lastStatus (log : List LogEntry) (src lbl : String) : Option String :=
  (lastMatch src lbl log).map (fun e => e.status)

/-- `SELECT COUNT(*) FROM kpi_snapshots WHERE source = ? AND
metric_title = ?`. -/
def countFor (rows : List Row) (src title : String) : Nat :=
  rows.countP (fun r => decide (r.source = src) && decide (r.metric_title = title))

/-- `has_historical_data(source, metric_title)`: true only when data rows
exist for the pair and the last scrape-log entry for it has status
`success`; `False` on any exception (`e1`: the count query raises, `e2`:
the status query raises). -/
def has_historical_data (db : DB) (src title : String) (e1 e2 : Bool) :
    Bool × DB :=
  ((if e1 then false
    else if countFor db.rows src title = 0 then false
    else if e2 then false
    else
      match lastStatus db.log src title with
      | some st => decide (st = "success")
      | none => false), db)

/-! ## Wide-format ingestion path (`src/common_utils.py`)

The legacy path: a CSV held as a data frame with a dynamic column set; a
row is an association list from column name to an optional cell (absent
binding and `none` both mean a missing value / `NaN`).  The module defines
`LONG_FORMAT_COLUMNS` and `WIDE_FORMAT_COLUMNS` but *no* `CORE_COLUMNS`,
although `get_existing_columns` and `update_data_dictionary` refer to
`CORE_COLUMNS`; evaluating that name raises `NameError`, embedded below as
the `Except.error` branch. -/

/-- `LONG_FORMAT_COLUMNS` from `common_utils.py`. -/
def LONG_FORMAT_COLUMNS : List String :=
  ["date", "timestamp", "source", "metric_title", "category",
   "sub_category", "value"]

structure WideDF where
  cols : List String
  dfRows : List (List (String × Option String))
deriving DecidableEq

/-- On-disk artefacts touched by `process_worker_result`: the snapshot CSV
and the data-dictionary document (as a list of lines); `none` means the
file does not exist. -/
structure WideState where
  csv : Option WideDF
  dict : Option (List String)
deriving DecidableEq

/-- Cell lookup in one data-frame row. -/
def cellOf (row : List (String × Option String)) (k : String) :
    Option String :=
  match row.find? (fun p => decide (p.1 = k)) with
  | some p => p.2
  | none => none

/-- `df[col] = None` for a previously missing column. -/
def dfAddCol (df : WideDF) (k : String) : WideDF :=
  if k ∈ df.cols then df else { df with cols := df.cols ++ [k] }

/-- `df.at[row_idx, key] = value`. -/
def setCell (row : List (String × Option String)) (k : String)
    (v : Option String) : List (String × Option String) :=
  if row.any (fun p => decide (p.1 = k))
  then row.map (fun p => if p.1 = k then (p.1, v) else p)
  else row ++ [(k, v)]

/-- `update_snapshot(df, source_name, data)`: add missing columns for the
keys of `data`, then overwrite the first row matching
`(date, source_name)` or append a fresh row.  Accessing `df["date"]` or
`df["source_name"]` on a frame without that column raises `KeyError`
(the `Except.error` branch). -/
def update_snapshot (df : WideDF) (src : String)
    (data : List (String × String)) (d ts : String) : Except Unit WideDF :=
  let df1 := data.foldl (fun acc p => dfAddCol acc p.1) df
  if "date" ∈ df1.cols ∧ "source_name" ∈ df1.cols then
    match df1.dfRows.findIdx? (fun row =>
        decide (cellOf row "date" = some d) &&
        decide (cellOf row "source_name" = some src)) with
    | some i =>
      let row0 := df1.dfRows.getD i []
      let row1 := data.foldl (fun acc p => setCell acc p.1 (some p.2))
        (setCell row0 "timestamp" (some ts))
      Except.ok { df1 with dfRows := df1.dfRows.set i row1 }
    | none =>
      let nr : List (String × Option String) :=
        [("date", some d), ("timestamp", some ts), ("source_name", some src)]
          ++ data.map (fun p => (p.1, some p.2))
      Except.ok
        { cols := nr.foldl (fun cs p => if p.1 ∈ cs then cs else cs ++ [p.1])
            df1.cols,
          dfRows := df1.dfRows ++ [nr] }
  else Except.error ()

/-- `load_or_create_csv(output_dir)` with the default
`use_long_format=True`: the existing frame, or a fresh empty frame with
`LONG_FORMAT_COLUMNS`. -/
def load_or_create_csv (csv : Option WideDF) : WideDF :=
  match csv with
  | some df => df
  | none => { cols := LONG_FORMAT_COLUMNS, dfRows := [] }

/-- `get_existing_columns(output_dir)`: the CSV header when the file
exists; when it does not, the fallback `return set(CORE_COLUMNS)` evaluates
the undefined name `CORE_COLUMNS` and raises `NameError`. -/
def get_existing_columns (csv : Option WideDF) : Except Unit (List String) :=
  match csv with
  | some df => Except.ok df.cols
  | none => Except.error ()

/-- `update_data_dictionary(new_columns, source_name)`: with a non-empty
`new_columns` set the loop guard `if col not in CORE_COLUMNS` evaluates the
undefined name `CORE_COLUMNS` before anything is written, raising
`NameError`; with an empty set the function returns without touching the
file. -/
def update_data_dictionary (new_cols : List String)
    (dict : Option (List String)) : Except Unit (Option (List String)) :=
  if new_cols.isEmpty then Except.ok dict else Except.error ()

/-- `process_worker_result(source_name, data)` (wide shape): the whole body
runs under `try/except Exception: return False`, and the CSV save happens
before the data-dictionary update, so an exception in the latter leaves the
saved CSV behind and yields `False`. -/
def process_worker_result (src : String) (data : List (String × String))
    (d ts : String) (st : WideState) : Bool × WideState :=
  match get_existing_columns st.csv with
  | Except.error _ => (false, st)
  | Except.ok existing =>
    match update_snapshot (load_or_create_csv st.csv) src data d ts with
    | Except.error _ => (false, st)
    | Except.ok df1 =>
      let st1 : WideState := { st with csv := some df1 }
      let new_cols :=
        (data.map Prod.fst).dedup.filter (fun k => decide (k ∉ existing))
      if new_cols.isEmpty then (true, st1)
      else
        match update_data_dictionary new_cols st1.dict with
        | Except.error _ => (false, st1)
        | Except.ok dict1 => (true, { st1 with dict := dict1 })

/-! ## Long-format auto-documentation engine (`src/common_utils.py`)

`DATA_DICTIONARY.md` modelled as its list of lines (`none`: the file does
not exist).  The Python code reads the whole file, appends
`"\n".join(new_entries) + "\n"` and writes it back; since the header
template and every appended chunk end in a newline and entry lines contain
no newline, the file is a well-formed line list and the rewrite is exactly
a line append. -/

/-- The header template written on first use (long format). -/
def headerLinesLong : List String :=
  ["# Data Dictionary",
   "## KPI Snapshots Schema Documentation",
   "",
   "This file is **automatically generated** by the Snapshot Scraper system.",
   "New metrics are documented here as they are detected.",
   "",
   "### CSV Structure",
   "| Column | Description |",
   "| :--- | :--- |",
   "| date | The date of the snapshot (YYYY-MM-DD) |",
   "| timestamp | Last update timestamp for the row |",
   "| source | Identifier of the data source/worker |",
   "| metric_title | Name of the report/metric being tracked |",
   "| category | Primary grouping (e.g., \x27Feb 2026\x27, \x27Close\x27, \x27true\x27) |",
   "| sub_category | Secondary grouping when table has 3+ columns (e.g., \x27First line support\x27) |",
   "| value | The numeric value (count or percentage) |",
   "",
   "---",
   "",
   "### Tracked Metrics",
   "",
   "| Metric Title | Source | Description | First Detected |",
   "| :--- | :--- | :--- | :--- |"]

/-- The Markdown table row written for one new metric:
`f"| {metric} | {source_name} | Report from {source_name}. [Add description] | {current_date} {current_time} |"`. -/
def entryLong (src d t m : String) : String :=
  "| " ++ m ++ " | " ++ src ++ " | Report from " ++ src ++
    ". [Add description] | " ++ d ++ " " ++ t ++ " |"

/-- The `new_entries` list built by `update_data_dictionary_long`:
`sorted(new_metrics)` iterates the set in ascending code-point order
(deduplication models the Python set) and empty-string metrics are
skipped. -/
def dictEntries (new_metrics : List String) (src d t : String) :
    List String :=
  ((sortBy strLeB new_metrics.dedup).filter (fun m => !m.isEmpty)).map
    (entryLong src d t)

/-- `update_data_dictionary_long(new_metrics, source_name)`.  `new_metrics`
is a Python set, modelled as a deduplicated list.  With no new metrics, or
no surviving entries, the file is untouched; otherwise the entries are
appended to the existing content (or to the freshly created header). -/
def update_data_dictionary_long (new_metrics : List String)
    (src d t : String) (file : Option (List String)) :
    Option (List String) :=
  if new_metrics.isEmpty then file
  else if (dictEntries new_metrics src d t).isEmpty then file
  else some (file.getD headerLinesLong ++ dictEntries new_metrics src d t)

/-- The lines of the dictionary document (empty when the file is absent). -/
def docLines (file : Option (List String)) : List String := file.getD []

/-! ## Upsert machinery: the last write for a key, and a normal form for
batched upserts -/

/-- The last row of `l` whose key is `k`, if any (the final write for that
key within a batch). -/
def lastUpd (k : RowKey) : List Row → Option Row
  | [] => none
  | r :: t =>
    match lastUpd k t with
    | some u => some u
    | none => if r.key = k then some r else none

/-- Overwrite `timestamp` and `value` of `x` with those of the last row of
`l` sharing its key, if any. -/
def applyLast (l : List Row) (x : Row) : Row :=
  match lastUpd x.key l with
  | some u => { x with timestamp := u.timestamp, value := u.value }
  | none => x

/-- The first row of `l` carrying each key, in order of first occurrence. -/
def firstOcc : List Row → List Row
  | [] => []
  | r :: t => r :: firstOcc (t.filter (fun x => !(decide (x.key = r.key))))
termination_by l => l.length
decreasing_by
  simp only [List.length_cons]
  exact Nat.lt_succ_of_le (List.length_filter_le _ _)

/-- The rows a batch `l` appends to a store `s`: first occurrences of keys
not yet in `s`, each carrying the final `timestamp` / `value` written for
its key. -/
def newOf (s l : List Row) : List Row :=
  ((firstOcc l).filter (fun r => !(hasKey s r.key))).map (applyLast l)

theorem updRow_key (r x : Row) : (updRow r x).key = x.key := by
  unfold updRow
  split <;> rfl

theorem applyLast_eq_some {l : List Row} {x u : Row}
    (h : lastUpd x.key l = some u) :
    applyLast l x = { x with timestamp := u.timestamp, value := u.value } := by
  unfold applyLast
  rw [h]

theorem applyLast_eq_none {l : List Row} {x : Row}
    (h : lastUpd x.key l = none) : applyLast l x = x := by
  unfold applyLast
  rw [h]

theorem applyLast_key (l : List Row) (x : Row) :
    (applyLast l x).key = x.key := by
  unfold applyLast
  split <;> rfl

theorem hasKey_eq_true_iff {s : List Row} {k : RowKey} :
    hasKey s k = true ↔ ∃ x ∈ s, x.key = k := by
  simp [hasKey, List.any_eq_true]

theorem hasKey_map {f : Row → Row} (hf : ∀ x, (f x).key = x.key)
    (s : List Row) (k : RowKey) : hasKey (s.map f) k = hasKey s k := by
  unfold hasKey
  rw [List.any_map]
  congr 1
  funext x
  simp [Function.comp, hf]

theorem hasKey_append (A B : List Row) (k : RowKey) :
    hasKey (A ++ B) k = (hasKey A k || hasKey B k) := by
  simp [hasKey, List.any_append]

theorem applyLast_cons (r : Row) (t : List Row) (x : Row) :
    applyLast (r :: t) x = applyLast t (updRow r x) := by
  by_cases hk : x.key = r.key
  · have hupd : updRow r x
        = { x with timestamp := r.timestamp, value := r.value } := by
      simp [updRow, hk]
    cases hl : lastUpd x.key t with
    | some u =>
      have hl1 : lastUpd x.key (r :: t) = some u := by simp [lastUpd, hl]
      have hl2 : lastUpd (updRow r x).key t = some u := by
        rw [updRow_key]; exact hl
      rw [applyLast_eq_some hl1, applyLast_eq_some hl2, hupd]
    | none =>
      have hl1 : lastUpd x.key (r :: t) = some r := by
        simp [lastUpd, hl, hk.symm]
      have hl2 : lastUpd (updRow r x).key t = none := by
        rw [updRow_key]; exact hl
      rw [applyLast_eq_some hl1, applyLast_eq_none hl2, hupd]
  · have hupd : updRow r x = x := by simp [updRow, hk]
    rw [hupd]
    cases hl : lastUpd x.key t with
    | some u =>
      have hl1 : lastUpd x.key (r :: t) = some u := by simp [lastUpd, hl]
      rw [applyLast_eq_some hl1, applyLast_eq_some hl]
    | none =>
      have hl1 : lastUpd x.key (r :: t) = none := by
        simp only [lastUpd, hl]
        rw [if_neg (fun h => hk h.symm)]
      rw [applyLast_eq_none hl1, applyLast_eq_none hl]

theorem mem_firstOcc : ∀ (l : List Row), ∀ x ∈ firstOcc l, x ∈ l := by
  intro l
  induction l using firstOcc.induct with
  | case1 =>
    intro x h
    simp [firstOcc] at h
  | case2 r t ih =>
    intro x h
    simp only [firstOcc] at h
    rcases List.mem_cons.mp h with rfl | hmem
    · exact List.mem_cons_self _ _
    · exact List.mem_cons_of_mem r (List.mem_of_mem_filter (ih x hmem))

theorem firstOcc_cons (r : Row) (t : List Row) :
    firstOcc (r :: t)
      = r :: firstOcc (t.filter (fun x => !(decide (x.key = r.key)))) := by
  simp only [firstOcc]

theorem firstOcc_filter_key (k : RowKey) :
    ∀ l : List Row,
      firstOcc (l.filter (fun x => !(decide (x.key = k))))
        = (firstOcc l).filter (fun x => !(decide (x.key = k))) := by
  intro l
  induction l using firstOcc.induct with
  | case1 => simp [firstOcc]
  | case2 r t ih =>
    by_cases hrk : r.key = k
    · subst hrk
      have hstep : (r :: t).filter (fun x => !(decide (x.key = r.key)))
          = t.filter (fun x => !(decide (x.key = r.key))) := by
        simp [List.filter_cons]
      have hR : (firstOcc (r :: t)).filter (fun x => !(decide (x.key = r.key)))
          = (firstOcc (t.filter (fun x => !(decide (x.key = r.key))))).filter
              (fun x => !(decide (x.key = r.key))) := by
        rw [firstOcc_cons]
        simp [List.filter_cons]
      rw [hstep, hR]
      refine (List.filter_eq_self.mpr ?_).symm
      intro a ha
      have ha2 : a ∈ t.filter (fun x => !(decide (x.key = r.key))) :=
        mem_firstOcc (t.filter (fun x => !(decide (x.key = r.key)))) a ha
      have ha3 := List.of_mem_filter ha2
      exact ha3
    · have hstep : (r :: t).filter (fun x => !(decide (x.key = k)))
          = r :: t.filter (fun x => !(decide (x.key = k))) := by
        simp [List.filter_cons, hrk]
      have hL : firstOcc ((r :: t).filter (fun x => !(decide (x.key = k))))
          = r :: firstOcc ((t.filter (fun x => !(decide (x.key = k)))).filter
              (fun x => !(decide (x.key = r.key)))) := by
        rw [hstep, firstOcc_cons]
      have hR : (firstOcc (r :: t)).filter (fun x => !(decide (x.key = k)))
          = r :: (firstOcc (t.filter (fun x => !(decide (x.key = r.key))))).filter
              (fun x => !(decide (x.key = k))) := by
        rw [firstOcc_cons]
        simp [List.filter_cons, hrk]
      rw [hL, hR]
      congr 1
      rw [List.filter_filter]
      rw [List.filter_filter] at ih
      have hpred : (fun a : Row => !(decide (a.key = r.key)) && !(decide (a.key = k)))
          = (fun a : Row => !(decide (a.key = k)) && !(decide (a.key = r.key))) := by
        funext a
        exact Bool.and_comm _ _
      rw [hpred]
      exact ih

theorem exists_firstOcc_key :
    ∀ (l : List Row), ∀ x ∈ l, ∃ y ∈ firstOcc l, y.key = x.key := by
  intro l
  induction l using firstOcc.induct with
  | case1 =>
    intro x h
    simp at h
  | case2 r t ih =>
    intro x hx
    rcases List.mem_cons.mp hx with rfl | hmem
    · exact ⟨x, by simp [firstOcc], rfl⟩
    · by_cases hk : x.key = r.key
      · exact ⟨r, by simp [firstOcc], hk.symm⟩
      · have hxf : x ∈ t.filter (fun z => !(decide (z.key = r.key))) := by
          refine List.mem_filter.mpr ⟨hmem, ?_⟩
          simp [hk]
        obtain ⟨y, hy, hyk⟩ := ih x hxf
        exact ⟨y, by simp [firstOcc]; exact Or.inr hy, hyk⟩

theorem firstOcc_pairwise :
    ∀ l : List Row, (firstOcc l).Pairwise (fun a b => a.key ≠ b.key) := by
  intro l
  induction l using firstOcc.induct with
  | case1 => simp [firstOcc]
  | case2 r t ih =>
    simp only [firstOcc]
    refine List.pairwise_cons.mpr ⟨?_, ih⟩
    intro y hy hcontra
    have hmem := mem_firstOcc _ y hy
    have := List.of_mem_filter hmem
    simp at this
    exact this hcontra.symm

theorem upsertRows_cons (s : List Row) (r : Row) (t : List Row) :
    upsertRows s (r :: t) = upsertRows (upsertRow s r) t := rfl

theorem upsertRows_normal :
    ∀ (l s : List Row), upsertRows s l = s.map (applyLast l) ++ newOf s l := by
  intro l
  induction l with
  | nil =>
    intro s
    have h1 : ∀ x : Row, applyLast ([] : List Row) x = x := fun x =>
      applyLast_eq_none rfl
    simp [upsertRows, newOf, firstOcc, List.map_congr_left (fun x _ => h1 x)]
  | cons r t ih =>
    intro s
    rw [upsertRows_cons, ih]
    have hmap : s.map (applyLast (r :: t))
        = (s.map (updRow r)).map (applyLast t) := by
      rw [List.map_map]
      exact List.map_congr_left (fun x _ => applyLast_cons r t x)
    have hfo : firstOcc (r :: t)
        = r :: (firstOcc t).filter (fun x => !(decide (x.key = r.key))) := by
      simp only [firstOcc]
      rw [firstOcc_filter_key]
    by_cases h : hasKey s r.key = true
    · have hups : upsertRow s r = s.map (updRow r) := by
        simp [upsertRow, h]
      rw [hups, ← hmap]
      congr 1
      -- newOf (s.map (updRow r)) t = newOf s (r :: t)
      unfold newOf
      rw [hfo]
      have hfilt1 : (firstOcc t).filter
            (fun y => !(hasKey (s.map (updRow r)) y.key))
          = (firstOcc t).filter (fun y => !(hasKey s y.key)) := by
        apply List.filter_congr
        intro y _
        rw [hasKey_map (updRow_key r)]
      rw [hfilt1]
      have hconsfilt : (r :: (firstOcc t).filter (fun x => !(decide (x.key = r.key)))).filter
            (fun y => !(hasKey s y.key))
          = ((firstOcc t).filter (fun x => !(decide (x.key = r.key)))).filter
            (fun y => !(hasKey s y.key)) := by
        simp [List.filter_cons, h]
      rw [hconsfilt, List.filter_filter]
      have hpred : ∀ y ∈ firstOcc t,
          (!(hasKey s y.key) && !(decide (y.key = r.key)))
            = (!(hasKey s y.key)) := by
        intro y _
        by_cases hk : y.key = r.key
        · rw [hk]
          simp [h]
        · simp [hk]
      rw [List.filter_congr hpred]
      apply List.map_congr_left
      intro y hy
      have hyk : ¬ (y.key = r.key) := by
        have := List.of_mem_filter hy
        intro hcontra
        rw [hcontra] at this
        simp [h] at this
      rw [applyLast_cons]
      have : updRow r y = y := by simp [updRow, hyk]
      rw [this]
    · have hnotmem : ∀ x ∈ s, ¬ (x.key = r.key) := by
        intro x hx hcontra
        exact absurd (hasKey_eq_true_iff.mpr ⟨x, hx, hcontra⟩) h
      have hups : upsertRow s r = s ++ [r] := by
        simp [upsertRow, h]
      have hmap2 : s.map (applyLast (r :: t)) = s.map (applyLast t) := by
        apply List.map_congr_left
        intro x hx
        rw [applyLast_cons]
        have hux : updRow r x = x := by simp [updRow, hnotmem x hx]
        rw [hux]
      have hhead : applyLast (r :: t) r = applyLast t r := by
        rw [applyLast_cons]
        have hur : updRow r r = r := by simp [updRow]
        rw [hur]
      have hfiltcomm :
          ((firstOcc t).filter (fun x => !(decide (x.key = r.key)))).filter
              (fun y => !(hasKey s y.key))
            = (firstOcc t).filter (fun y => !(hasKey (s ++ [r]) y.key)) := by
        rw [List.filter_filter]
        apply List.filter_congr
        intro y _
        rw [hasKey_append]
        have hsingle : hasKey [r] y.key = decide (r.key = y.key) := by
          simp [hasKey]
        rw [hsingle]
        by_cases hk : y.key = r.key
        · simp [hk]
        · simp [hk, Ne.symm hk]
      have htailmap :
          ((firstOcc t).filter (fun y => !(hasKey (s ++ [r]) y.key))).map
              (applyLast (r :: t))
            = ((firstOcc t).filter (fun y => !(hasKey (s ++ [r]) y.key))).map
              (applyLast t) := by
        apply List.map_congr_left
        intro y hy
        have hyk : ¬ (y.key = r.key) := by
          have hmem := List.of_mem_filter hy
          intro hcontra
          rw [hasKey_append] at hmem
          have hsingle : hasKey [r] y.key = decide (r.key = y.key) := by
            simp [hasKey]
          rw [hsingle, hcontra] at hmem
          simp at hmem
        rw [applyLast_cons]
        have huy : updRow r y = y := by simp [updRow, hyk]
        rw [huy]
      have hnewOf2 : newOf s (r :: t)
          = applyLast t r
              :: ((firstOcc t).filter (fun y => !(hasKey (s ++ [r]) y.key))).map
                (applyLast t) := by
        unfold newOf
        rw [hfo]
        have hrpass : (r :: (firstOcc t).filter (fun x => !(decide (x.key = r.key)))).filter
              (fun y => !(hasKey s y.key))
            = r :: ((firstOcc t).filter (fun x => !(decide (x.key = r.key)))).filter
              (fun y => !(hasKey s y.key)) := by
          simp [List.filter_cons, h]
        rw [hrpass, List.map_cons, hhead, hfiltcomm, htailmap]
      have hnewOf1 : newOf (s ++ [r]) t
          = ((firstOcc t).filter (fun y => !(hasKey (s ++ [r]) y.key))).map
              (applyLast t) := rfl
      rw [hups, List.map_append, hmap2, hnewOf1, hnewOf2, List.append_assoc]
      congr 1

theorem applyLast_idem (l : List Row) (x : Row) :
    applyLast l (applyLast l x) = applyLast l x := by
  cases hl : lastUpd x.key l with
  | none =>
    rw [applyLast_eq_none hl, applyLast_eq_none hl]
  | some u =>
    have h1 := applyLast_eq_some hl
    have hl2 : lastUpd (applyLast l x).key l = some u := by
      rw [applyLast_key]
      exact hl
    rw [applyLast_eq_some hl2, h1]

theorem applyLast_fix {s l : List Row} :
    ∀ z ∈ upsertRows s l, applyLast l z = z := by
  intro z hz
  rw [upsertRows_normal] at hz
  rcases List.mem_append.mp hz with hz | hz
  · rcases List.mem_map.mp hz with ⟨x, _, rfl⟩
    exact applyLast_idem l x
  · rcases List.mem_map.mp hz with ⟨y, _, rfl⟩
    exact applyLast_idem l y

theorem hasKey_upsertRows_of_key {l : List Row} {k : RowKey}
    (hk : ∃ x ∈ l, x.key = k) (s : List Row) :
    hasKey (upsertRows s l) k = true := by
  obtain ⟨x, hx, rfl⟩ := hk
  rw [upsertRows_normal, hasKey_append]
  by_cases hs : hasKey s x.key = true
  · rw [hasKey_map (applyLast_key l), hs]
    rfl
  · obtain ⟨y, hy, hyk⟩ := exists_firstOcc_key l x hx
    have hyfilter : y ∈ (firstOcc l).filter (fun r => !(hasKey s r.key)) := by
      refine List.mem_filter.mpr ⟨hy, ?_⟩
      rw [hyk]
      simp [hs]
    have hmem : applyLast l y ∈ newOf s l := List.mem_map_of_mem _ hyfilter
    have h2 : hasKey (newOf s l) x.key = true := by
      refine hasKey_eq_true_iff.mpr ⟨applyLast l y, hmem, ?_⟩
      rw [applyLast_key]
      exact hyk
    rw [h2]
    simp

theorem newOf_eq_nil {S l : List Row}
    (h : ∀ y ∈ firstOcc l, hasKey S y.key = true) : newOf S l = [] := by
  unfold newOf
  have hfilter : (firstOcc l).filter (fun r => !(hasKey S r.key)) = [] := by
    rw [List.filter_eq_nil_iff]
    intro a ha
    simp [h a ha]
  rw [hfilter]
  rfl

theorem upsertRows_idem (s l : List Row) :
    upsertRows (upsertRows s l) l = upsertRows s l := by
  conv_lhs => rw [upsertRows_normal]
  have h1 : newOf (upsertRows s l) l = [] := by
    apply newOf_eq_nil
    intro y hy
    exact hasKey_upsertRows_of_key ⟨y, mem_firstOcc l y hy, rfl⟩ s
  rw [h1, List.append_nil]
  calc (upsertRows s l).map (applyLast l)
      = (upsertRows s l).map id :=
        List.map_congr_left (fun a ha => applyLast_fix a ha)
    _ = upsertRows s l := List.map_id _

/-! ## Preservation of the unique-index invariant -/

theorem keysUnique_upsertRow {s : List Row} (hu : KeysUnique s) (r : Row) :
    KeysUnique (upsertRow s r) := by
  unfold upsertRow
  by_cases h : hasKey s r.key = true
  · rw [if_pos h]
    unfold KeysUnique
    rw [List.pairwise_map]
    refine hu.imp ?_
    intro a b hab
    rw [updRow_key, updRow_key]
    exact hab
  · rw [if_neg h]
    unfold KeysUnique
    rw [List.pairwise_append]
    refine ⟨hu, List.pairwise_singleton _ _, ?_⟩
    intro a ha b hb
    rcases List.mem_singleton.mp hb with rfl
    intro hcontra
    exact h (hasKey_eq_true_iff.mpr ⟨a, ha, hcontra⟩)

theorem keysUnique_upsertRows {s : List Row} (hu : KeysUnique s)
    (l : List Row) : KeysUnique (upsertRows s l) := by
  induction l generalizing s with
  | nil => exact hu
  | cons r t ih => exact ih (keysUnique_upsertRow hu r)

theorem keysUnique_reachable {s : List Row} (h : Reachable s) :
    KeysUnique s := by
  induction h with
  | init => exact List.Pairwise.nil
  | upsert src data d ts _ ih => exact keysUnique_upsertRows ih _
  | migrate csv _ ih => exact keysUnique_upsertRows ih _

/-! ## The stored value under a key after a batch -/

theorem lastUpd_mem_key {k : RowKey} :
    ∀ {l : List Row} {u : Row}, lastUpd k l = some u → u ∈ l ∧ u.key = k := by
  intro l
  induction l with
  | nil =>
    intro u h
    simp [lastUpd] at h
  | cons r t ih =>
    intro u h
    unfold lastUpd at h
    cases ht : lastUpd k t with
    | some v =>
      rw [ht] at h
      rcases Option.some_inj.mp h with rfl
      obtain ⟨hm, hk⟩ := ih ht
      exact ⟨List.mem_cons_of_mem r hm, hk⟩
    | none =>
      rw [ht] at h
      by_cases hrk : r.key = k
      · rw [if_pos hrk] at h
        rcases Option.some_inj.mp h with rfl
        exact ⟨List.mem_cons_self _ _, hrk⟩
      · rw [if_neg hrk] at h
        exact absurd h (by simp)

theorem lastUpd_eq_none {k : RowKey} :
    ∀ {l : List Row}, (∀ x ∈ l, ¬ (x.key = k)) → lastUpd k l = none := by
  intro l
  induction l with
  | nil => intro; rfl
  | cons r t ih =>
    intro h
    unfold lastUpd
    rw [ih (fun x hx => h x (List.mem_cons_of_mem r hx))]
    rw [if_neg (h r (List.mem_cons_self _ _))]

theorem lastUpd_cons (k : RowKey) (r : Row) (t : List Row) :
    lastUpd k (r :: t)
      = match lastUpd k t with
        | some u => some u
        | none => if r.key = k then some r else none := rfl

theorem lastUpd_append (k : RowKey) (A B : List Row) :
    lastUpd k (A ++ B)
      = match lastUpd k B with
        | some u => some u
        | none => lastUpd k A := by
  induction A with
  | nil =>
    simp only [List.nil_append]
    cases hB : lastUpd k B with
    | some u => rfl
    | none => rfl
  | cons a A2 ih =>
    rw [List.cons_append, lastUpd_cons, ih]
    cases hB : lastUpd k B with
    | some u => rfl
    | none => rfl

/-- In a store with unique keys, the rows filtered at a present key form
exactly the singleton of that row. -/
theorem filter_key_unique :
    ∀ {s : List Row}, KeysUnique s → ∀ {x : Row}, x ∈ s →
      s.filter (fun r => decide (r.key = x.key)) = [x] := by
  intro s
  induction s with
  | nil =>
    intro _ x hx
    simp at hx
  | cons a t ih =>
    intro hu x hx
    rcases List.pairwise_cons.mp hu with ⟨ha, htu⟩
    rcases List.mem_cons.mp hx with rfl | hmem
    · rw [List.filter_cons]
      rw [if_pos (by simp)]
      have htail : t.filter (fun r => decide (r.key = x.key)) = [] := by
        rw [List.filter_eq_nil_iff]
        intro b hb
        simp [(ha b hb).symm]
      rw [htail]
    · rw [List.filter_cons]
      have hne : ¬ (a.key = x.key) := ha x hmem
      rw [if_neg (by simp [hne])]
      exact ih htu hmem

theorem getVal_append (A B : List Row) (k : RowKey) :
    getVal (A ++ B) k = getVal A k ++ getVal B k := by
  simp [getVal, List.filter_append]

/-- After a batch, the rows stored under key `k` consist exactly of one row
carrying the `value` and `timestamp` of the last write for `k` in the
batch. -/
theorem getVal_upsertRows_last {s : List Row} (hu : KeysUnique s)
    {l : List Row} {k : RowKey} {u : Row} (hl : lastUpd k l = some u) :
    getVal (upsertRows s l) k = [(u.value, u.timestamp)] := by
  obtain ⟨humem, huk⟩ := lastUpd_mem_key hl
  rw [upsertRows_normal, getVal_append]
  have hfm : (s.map (applyLast l)).filter (fun r => decide (r.key = k))
      = (s.filter (fun r => decide (r.key = k))).map (applyLast l) := by
    rw [List.filter_map]
    refine congrArg (List.map (applyLast l)) ?_
    apply List.filter_congr
    intro x _
    simp [Function.comp, applyLast_key]
  by_cases hs : hasKey s k = true
  · obtain ⟨x0, hx0, hx0k⟩ := hasKey_eq_true_iff.mp hs
    -- the `s`-part contributes the single overwritten row
    have hsf : s.filter (fun r => decide (r.key = k)) = [x0] := by
      rw [← hx0k]
      exact filter_key_unique hu hx0
    have happ : applyLast l x0
        = { x0 with timestamp := u.timestamp, value := u.value } := by
      apply applyLast_eq_some
      rw [hx0k]
      exact hl
    have hleft : getVal (s.map (applyLast l)) k
        = [(u.value, u.timestamp)] := by
      unfold getVal
      rw [hfm, hsf, List.map_cons, happ]
      rfl
    -- the appended part contributes nothing: its keys avoid `s`
    have hright : getVal (newOf s l) k = [] := by
      unfold getVal
      have hfilter : (newOf s l).filter (fun r => decide (r.key = k)) = [] := by
        rw [List.filter_eq_nil_iff]
        intro a hamem
        unfold newOf at hamem
        rcases List.mem_map.mp hamem with ⟨y, hy, rfl⟩
        have hynot := List.of_mem_filter hy
        simp only [applyLast_key, decide_eq_true_eq]
        intro hcontra
        rw [hcontra] at hynot
        simp [hs] at hynot
      rw [hfilter]
      rfl
    rw [hleft, hright, List.append_nil]
  · -- no previous row: the single appended row carries the last write
    have hleft : getVal (s.map (applyLast l)) k = [] := by
      unfold getVal
      rw [hfm]
      have hsf : s.filter (fun r => decide (r.key = k)) = [] := by
        rw [List.filter_eq_nil_iff]
        intro a ha
        simp only [decide_eq_true_eq]
        intro hcontra
        exact hs (hasKey_eq_true_iff.mpr ⟨a, ha, hcontra⟩)
      rw [hsf]
      rfl
    obtain ⟨y, hy, hyk⟩ := exists_firstOcc_key l u humem
    have hyk2 : y.key = k := by rw [hyk, huk]
    have hright : getVal (newOf s l) k = [(u.value, u.timestamp)] := by
      unfold getVal newOf
      have hfm2 : ((((firstOcc l).filter (fun r => !(hasKey s r.key))).map
            (applyLast l)).filter (fun r => decide (r.key = k)))
          = ((((firstOcc l).filter (fun r => !(hasKey s r.key))).filter
            (fun r => decide (r.key = k))).map (applyLast l)) := by
        rw [List.filter_map]
        refine congrArg (List.map (applyLast l)) ?_
        apply List.filter_congr
        intro x _
        simp [Function.comp, applyLast_key]
      rw [hfm2, List.filter_filter]
      have hpred : ∀ a ∈ firstOcc l,
          (decide (a.key = k) && !(hasKey s a.key)) = decide (a.key = k) := by
        intro a _
        by_cases hak : a.key = k
        · rw [hak]
          simp [hs]
        · simp [hak]
      rw [List.filter_congr hpred]
      have hfof : (firstOcc l).filter (fun a => decide (a.key = k)) = [y] := by
        have hfu : (firstOcc l).Pairwise (fun a b => a.key ≠ b.key) :=
          firstOcc_pairwise l
        rw [← hyk2]
        exact filter_key_unique hfu hy
      rw [hfof, List.map_cons]
      have happy : applyLast l y
          = { y with timestamp := u.timestamp, value := u.value } := by
        apply applyLast_eq_some
        rw [hyk2]
        exact hl
      rw [happy]
      rfl
    rw [hleft, hright]
    rfl

/-! ## Re-running a batch with a fresh write timestamp -/

/-- The natural key produced for one observation by `upsert_metrics`. -/
def obsKey (src d : String) (o : Obs) : RowKey :=
  (d, src, o.metric_title, o.category, o.sub_category)

theorem toRow_key (src d ts : String) (o : Obs) :
    (Obs.toRow src d ts o).key = obsKey src d o := rfl

/-- Erase the `timestamp` column (the only column refreshed by a repeated
identical write). -/
def stripTs (r : Row) : Row := { r with timestamp := "" }

/-- Replace the `timestamp` column. -/
def retime (ts : String) (r : Row) : Row := { r with timestamp := ts }

theorem retime_key (ts : String) (r : Row) : (retime ts r).key = r.key := rfl

theorem lastUpd_map_keyPres {f : Row → Row} (hf : ∀ x, (f x).key = x.key)
    (k : RowKey) : ∀ l : List Row, lastUpd k (l.map f) = (lastUpd k l).map f := by
  intro l
  induction l with
  | nil => rfl
  | cons r t ih =>
    rw [List.map_cons, lastUpd_cons, ih, lastUpd_cons, hf]
    cases lastUpd k t with
    | some u => rfl
    | none =>
      by_cases hrk : r.key = k
      · rw [if_pos hrk, if_pos hrk]
        rfl
      · rw [if_neg hrk, if_neg hrk]
        rfl

theorem obsRows_retime (src d ts1 ts2 : String) (B : List Obs) :
    (B.map (Obs.toRow src d ts1)).map (retime ts2)
      = B.map (Obs.toRow src d ts2) := by
  rw [List.map_map]
  exact List.map_congr_left (fun o _ => rfl)

/-- A second run of the same batch only maps `applyLast` of the retimed
batch over the store: it appends nothing. -/
theorem upsert_twice_eq_map (src : String) (B : List Obs) (d ts1 ts2 : String)
    (s : List Row) :
    upsert_metrics src B d ts2 (upsert_metrics src B d ts1 s)
      = (upsert_metrics src B d ts1 s).map
          (applyLast (B.map (Obs.toRow src d ts2))) := by
  unfold upsert_metrics
  rw [upsertRows_normal]
  have hnil : newOf (upsertRows s (B.map (Obs.toRow src d ts1)))
      (B.map (Obs.toRow src d ts2)) = [] := by
    apply newOf_eq_nil
    intro y hy
    have hy2 := mem_firstOcc _ y hy
    rcases List.mem_map.mp hy2 with ⟨o, ho, rfl⟩
    refine hasKey_upsertRows_of_key ⟨Obs.toRow src d ts1 o, List.mem_map_of_mem _ ho, rfl⟩ s
  rw [hnil, List.append_nil]

theorem stripTs_applyLast_retimed (src : String) (B : List Obs)
    (d ts1 ts2 : String) (s : List Row) :
    ∀ z ∈ upsertRows s (B.map (Obs.toRow src d ts1)),
      stripTs (applyLast (B.map (Obs.toRow src d ts2)) z) = stripTs z := by
  intro z hz
  have hfix := applyLast_fix z hz
  have hmap : lastUpd z.key (B.map (Obs.toRow src d ts2))
      = (lastUpd z.key (B.map (Obs.toRow src d ts1))).map (retime ts2) := by
    rw [← obsRows_retime src d ts1 ts2 B]
    exact lastUpd_map_keyPres (retime_key ts2) z.key _
  cases hl : lastUpd z.key (B.map (Obs.toRow src d ts1)) with
  | none =>
    have hl2 : lastUpd z.key (B.map (Obs.toRow src d ts2)) = none := by
      rw [hmap, hl]
      rfl
    rw [applyLast_eq_none hl2]
  | some u =>
    have hl2 : lastUpd z.key (B.map (Obs.toRow src d ts2))
        = some (retime ts2 u) := by
      rw [hmap, hl]
      rfl
    rw [applyLast_eq_some hl2]
    have hfix2 : z = { z with timestamp := u.timestamp, value := u.value } := by
      conv_lhs => rw [← hfix]
      rw [applyLast_eq_some hl]
    conv_rhs => rw [hfix2]
    rfl

/-! ## The ORDER BY comparison is a total preorder -/

theorem strLtB_conn {a b : String} (h1 : strLtB a b = false)
    (h2 : strLtB b a = false) : a = b :=
  String.ext (charListLt_conn h1 h2)

theorem strLtB_trans {a b c : String} (h1 : strLtB a b = true)
    (h2 : strLtB b c = true) : strLtB a c = true :=
  charListLt_trans h1 h2

theorem strLeB_trans {a b c : String} (h1 : strLeB a b = true)
    (h2 : strLeB b c = true) : strLeB a c = true :=
  charListLe_trans h1 h2

theorem rowLE_total : ∀ a b : Row, rowLE a b = true ∨ rowLE b a = true := by
  intro a b
  unfold rowLE
  cases h1 : strLtB a.date b.date with
  | true => exact Or.inl (by simp [h1])
  | false =>
    cases h2 : strLtB b.date a.date with
    | true => exact Or.inr (by simp [h2])
    | false =>
      have hd : a.date = b.date := strLtB_conn h1 h2
      cases h3 : strLtB a.source b.source with
      | true => exact Or.inl (by simp [h1, hd, h3])
      | false =>
        cases h4 : strLtB b.source a.source with
        | true => exact Or.inr (by simp [h2, hd, h4])
        | false =>
          have hs : a.source = b.source := strLtB_conn h3 h4
          rcases charListLe_total a.metric_title.data b.metric_title.data
            with h5 | h5
          · refine Or.inl (by simp [h1, hd, h3, hs, strLeB, h5])
          · refine Or.inr (by simp [h2, hd.symm, h4, hs.symm, strLeB, h5])

theorem rowLE_trans : ∀ a b c : Row,
    rowLE a b = true → rowLE b c = true → rowLE a c = true := by
  intro a b c hab hbc
  unfold rowLE at hab hbc ⊢
  simp only [Bool.or_eq_true, Bool.and_eq_true, decide_eq_true_eq]
    at hab hbc ⊢
  rcases hab with h1 | ⟨hd1, h1⟩
  · rcases hbc with h2 | ⟨hd2, h2⟩
    · exact Or.inl (strLtB_trans h1 h2)
    · rw [hd2] at h1
      exact Or.inl h1
  · rcases hbc with h2 | ⟨hd2, h2⟩
    · rw [← hd1] at h2
      exact Or.inl h2
    · refine Or.inr ⟨hd1.trans hd2, ?_⟩
      rcases h1 with hs1 | ⟨hsrc1, hm1⟩
      · rcases h2 with hs2 | ⟨hsrc2, hm2⟩
        · exact Or.inl (strLtB_trans hs1 hs2)
        · rw [hsrc2] at hs1
          exact Or.inl hs1
      · rcases h2 with hs2 | ⟨hsrc2, hm2⟩
        · rw [← hsrc1] at hs2
          exact Or.inl hs2
        · exact Or.inr ⟨hsrc1.trans hsrc2, strLeB_trans hm1 hm2⟩

/-! ## Auto-documentation: entry lines are marked and injective -/

/-- The literal `[Add description]` placed in every generated entry. -/
def markerChars : List Char := "[Add description]".data

/-- Whether `pat` is an initial segment. -/
def startsWithChars : List Char → List Char → Bool
  | [], _ => true
  | _ :: _, [] => false
  | p :: ps, c :: cs => decide (p = c) && startsWithChars ps cs

/-- Whether the marker occurs anywhere in the line. -/
def hasMarker : List Char → Bool
  | [] => false
  | c :: cs => startsWithChars markerChars (c :: cs) || hasMarker cs

theorem hasMarker_cons (c : Char) (cs : List Char) :
    hasMarker (c :: cs)
      = (startsWithChars markerChars (c :: cs) || hasMarker cs) := rfl

theorem startsWithChars_self_append :
    ∀ (p rest : List Char), startsWithChars p (p ++ rest) = true := by
  intro p
  induction p with
  | nil => intro rest; rfl
  | cons c ps ih =>
    intro rest
    rw [List.cons_append]
    show (decide (c = c) && startsWithChars ps (ps ++ rest)) = true
    simp [ih]

theorem hasMarker_of_startsWith {l : List Char}
    (h : startsWithChars markerChars l = true) : hasMarker l = true := by
  cases l with
  | nil => exact absurd h (by decide)
  | cons c cs =>
    rw [hasMarker_cons, h]
    rfl

theorem hasMarker_of_split (A B : List Char) :
    hasMarker (A ++ (markerChars ++ B)) = true := by
  induction A with
  | nil =>
    rw [List.nil_append]
    exact hasMarker_of_startsWith (startsWithChars_self_append markerChars B)
  | cons c A2 ih =>
    rw [List.cons_append, hasMarker_cons, ih]
    simp

theorem entryLong_hasMarker (src d t m : String) :
    hasMarker (entryLong src d t m).data = true := by
  have hsplit : (entryLong src d t m).data
      = (("| " : String).data ++ (m.data ++ ((" | " : String).data
          ++ (src.data ++ ((" | Report from " : String).data
          ++ (src.data ++ (". " : String).data))))))
        ++ (markerChars ++ ((" | " : String).data ++ (d.data
          ++ ((" " : String).data ++ (t.data ++ (" |" : String).data))))) := by
    unfold entryLong markerChars
    simp only [String.data_append, List.append_assoc, List.cons_append,
      List.nil_append]
  rw [hsplit]
  exact hasMarker_of_split _ _

theorem headerLinesLong_no_marker :
    ∀ ln ∈ headerLinesLong, hasMarker ln.data = false := by decide

theorem entryLong_ne_header {src d t m ln : String}
    (hln : ln ∈ headerLinesLong) : entryLong src d t m ≠ ln := by
  intro hcontra
  have h1 := entryLong_hasMarker src d t m
  rw [hcontra, headerLinesLong_no_marker ln hln] at h1
  exact Bool.false_ne_true h1

theorem entryLong_data_split (src d t m : String) :
    (entryLong src d t m).data
      = ("| " : String).data
        ++ (m.data
          ++ ((" | " ++ src ++ " | Report from " ++ src
                ++ ". [Add description] | " : String).data
            ++ (d.data
              ++ ((" " : String).data
                ++ (t.data ++ (" |" : String).data))))) := by
  unfold entryLong
  simp only [String.data_append, List.append_assoc]

theorem entryLong_inj {src d1 t1 m1 d2 t2 m2 : String}
    (hd : d1.length = d2.length) (ht : t1.length = t2.length)
    (h : entryLong src d1 t1 m1 = entryLong src d2 t2 m2) :
    m1 = m2 ∧ d1 = d2 ∧ t1 = t2 := by
  have hd2 : d1.data.length = d2.data.length := hd
  have ht2 : t1.data.length = t2.data.length := ht
  have hdata := congrArg String.data h
  rw [entryLong_data_split, entryLong_data_split] at hdata
  have h2 := List.append_cancel_left hdata
  have hlen :
      ((" | " ++ src ++ " | Report from " ++ src
          ++ ". [Add description] | " : String).data
        ++ (d1.data ++ ((" " : String).data
          ++ (t1.data ++ (" |" : String).data)))).length
      = ((" | " ++ src ++ " | Report from " ++ src
          ++ ". [Add description] | " : String).data
        ++ (d2.data ++ ((" " : String).data
          ++ (t2.data ++ (" |" : String).data)))).length := by
    simp only [List.length_append]
    omega
  obtain ⟨hm, hrest⟩ := List.append_inj' h2 hlen
  have h3 := List.append_cancel_left hrest
  obtain ⟨hdd, hrest2⟩ := List.append_inj h3 hd2
  have h4 := List.append_cancel_left hrest2
  obtain ⟨htt, _⟩ := List.append_inj h4 ht2
  exact ⟨String.ext hm, String.ext hdd, String.ext htt⟩

/-- What one documentation update appends: the document grows by a suffix
`n`; every non-empty new metric has its entry in `n`; every line of `n` is
a header line or the entry of some non-empty metric of the call. -/
theorem update_dict_shape (S : List String) (src d t : String)
    (file : Option (List String)) :
    ∃ n : List String,
      docLines (update_data_dictionary_long S src d t file)
        = docLines file ++ n ∧
      (∀ m ∈ S, m ≠ "" → entryLong src d t m ∈ n) ∧
      (∀ ln ∈ n, ln ∈ headerLinesLong
        ∨ ∃ m ∈ S, m ≠ "" ∧ ln = entryLong src d t m) := by
  by_cases hS : S.isEmpty = true
  · refine ⟨[], ?_, ?_, by simp⟩
    · unfold update_data_dictionary_long
      rw [if_pos hS, List.append_nil]
    · intro m hm _
      rw [List.isEmpty_iff.mp hS] at hm
      simp at hm
  · by_cases hE : (dictEntries S src d t).isEmpty = true
    · refine ⟨[], ?_, ?_, by simp⟩
      · unfold update_data_dictionary_long
        rw [if_neg hS, if_pos hE, List.append_nil]
      · intro m hm hne
        exfalso
        have hnil : dictEntries S src d t = [] := List.isEmpty_iff.mp hE
        unfold dictEntries at hnil
        rw [List.map_eq_nil_iff, List.filter_eq_nil_iff] at hnil
        have hmem : m ∈ sortBy strLeB S.dedup :=
          mem_sortBy.mpr (List.mem_dedup.mpr hm)
        have := hnil m hmem
        simp [String.isEmpty_iff] at this
        exact hne this
    · have hupd : update_data_dictionary_long S src d t file
          = some (file.getD headerLinesLong ++ dictEntries S src d t) := by
        unfold update_data_dictionary_long
        rw [if_neg hS, if_neg hE]
      have hentrymem : ∀ m ∈ S, m ≠ ""
          → entryLong src d t m ∈ dictEntries S src d t := by
        intro m hm hne
        unfold dictEntries
        refine List.mem_map_of_mem _ (List.mem_filter.mpr
          ⟨mem_sortBy.mpr (List.mem_dedup.mpr hm), ?_⟩)
        cases hmi : m.isEmpty with
        | false => rfl
        | true => exact absurd (String.isEmpty_iff m |>.mp hmi) hne
      have hentrysrc : ∀ ln ∈ dictEntries S src d t,
          ∃ m ∈ S, m ≠ "" ∧ ln = entryLong src d t m := by
        intro ln hln
        unfold dictEntries at hln
        rcases List.mem_map.mp hln with ⟨m, hm, rfl⟩
        have hmS : m ∈ S :=
          List.mem_dedup.mp (mem_sortBy.mp (List.mem_filter.mp hm).1)
        have hmne : m ≠ "" := by
          have hfalse := (List.mem_filter.mp hm).2
          intro hcontra
          rw [hcontra] at hfalse
          exact absurd hfalse (by decide)
        exact ⟨m, hmS, hmne, rfl⟩
      cases file with
      | none =>
        refine ⟨headerLinesLong ++ dictEntries S src d t, ?_, ?_, ?_⟩
        · rw [hupd]
          rfl
        · intro m hm hne
          exact List.mem_append_right _ (hentrymem m hm hne)
        · intro ln hln
          rcases List.mem_append.mp hln with hln | hln
          · exact Or.inl hln
          · exact Or.inr (hentrysrc ln hln)
      | some l0 =>
        refine ⟨dictEntries S src d t, ?_, hentrymem, ?_⟩
        · rw [hupd]
          rfl
        · intro ln hln
          exact Or.inr (hentrysrc ln hln)

/-! ## Claims -/

/-- C1: every store state reachable through `init_db`, `upsert_metrics`
and `migrate_csv_to_db` keeps the natural key `(date, source,
metric_title, category, sub_category)` unique across all rows; upserting
one observation preserves uniqueness and leaves exactly one row under the
observation key, carrying the new `value` and the new write timestamp —
the old value never survives a collision and no second row is created. -/
theorem c1_natural_key_uniqueness (s : List Row) (h : Reachable s)
    (src d ts : String) (o : Obs) :
    KeysUnique s ∧
    KeysUnique (upsert_metrics src [o] d ts s) ∧
    getVal (upsert_metrics src [o] d ts s) (obsKey src d o)
      = [(o.value, ts)] := by
  have hu := keysUnique_reachable h
  refine ⟨hu, keysUnique_upsertRows hu _, ?_⟩
  have hl : lastUpd (obsKey src d o) ([o].map (Obs.toRow src d ts))
      = some (Obs.toRow src d ts o) := by
    simp [lastUpd, toRow_key]
  exact getVal_upsertRows_last hu hl

theorem c1_witness :
    KeysUnique (upsert_metrics "smax" [⟨"Open Tickets", "total", "", "42"⟩]
        "2024-01-15" "2024-01-15 10:00:00" init_db) ∧
    KeysUnique (upsert_metrics "smax" [⟨"Open Tickets", "total", "", "50"⟩]
        "2024-01-15" "2024-01-15 10:05:00"
        (upsert_metrics "smax" [⟨"Open Tickets", "total", "", "42"⟩]
          "2024-01-15" "2024-01-15 10:00:00" init_db)) ∧
    getVal (upsert_metrics "smax" [⟨"Open Tickets", "total", "", "50"⟩]
        "2024-01-15" "2024-01-15 10:05:00"
        (upsert_metrics "smax" [⟨"Open Tickets", "total", "", "42"⟩]
          "2024-01-15" "2024-01-15 10:00:00" init_db))
      (obsKey "smax" "2024-01-15" ⟨"Open Tickets", "total", "", "50"⟩)
      = [("50", "2024-01-15 10:05:00")] :=
  c1_natural_key_uniqueness _
    (Reachable.upsert "smax" [⟨"Open Tickets", "total", "", "42"⟩]
      "2024-01-15" "2024-01-15 10:00:00" Reachable.init)
    "smax" "2024-01-15" "2024-01-15 10:05:00"
    ⟨"Open Tickets", "total", "", "50"⟩

/-- C2: last-write-wins.  Within one `upsert_metrics` call the final state
for a key carries the value and write timestamp of the last observation in
the input list for that key; across two successive calls the second write
overwrites the first.  In both cases exactly one row is stored under the
key. -/
theorem c2_last_write_wins (s : List Row) (hu : KeysUnique s)
    (src d : String) (B1 B2 : List Obs) (o o1 o2 : Obs) (ts ts1 ts2 : String)
    (hB2 : ∀ x ∈ B2, obsKey src d x ≠ obsKey src d o)
    (_hkeys : obsKey src d o1 = obsKey src d o2) :
    getVal (upsert_metrics src (B1 ++ o :: B2) d ts s) (obsKey src d o)
      = [(o.value, ts)] ∧
    getVal (upsert_metrics src [o2] d ts2 (upsert_metrics src [o1] d ts1 s))
      (obsKey src d o2) = [(o2.value, ts2)] := by
  constructor
  · have hnone : lastUpd (obsKey src d o) (B2.map (Obs.toRow src d ts))
        = none := by
      apply lastUpd_eq_none
      intro x hx
      rcases List.mem_map.mp hx with ⟨b, hb, rfl⟩
      rw [toRow_key]
      exact hB2 b hb
    have hmid : lastUpd (obsKey src d o)
        (Obs.toRow src d ts o :: B2.map (Obs.toRow src d ts))
        = some (Obs.toRow src d ts o) := by
      rw [lastUpd_cons, hnone]
      rw [if_pos (toRow_key src d ts o)]
    have hl : lastUpd (obsKey src d o)
        ((B1 ++ o :: B2).map (Obs.toRow src d ts))
        = some (Obs.toRow src d ts o) := by
      rw [List.map_append, List.map_cons, lastUpd_append, hmid]
    exact getVal_upsertRows_last hu hl
  · have hu2 : KeysUnique (upsert_metrics src [o1] d ts1 s) :=
      keysUnique_upsertRows hu _
    have hl : lastUpd (obsKey src d o2) ([o2].map (Obs.toRow src d ts2))
        = some (Obs.toRow src d ts2 o2) := by
      simp [lastUpd, toRow_key]
    exact getVal_upsertRows_last hu2 hl

theorem c2_witness :
    getVal (upsert_metrics "smax"
        ([⟨"Open Tickets", "total", "", "42"⟩]
          ++ ⟨"Open Tickets", "total", "", "50"⟩
            :: [⟨"Closed Tickets", "total", "", "9"⟩])
        "2024-01-15" "2024-01-15 10:00:00" [])
      (obsKey "smax" "2024-01-15" ⟨"Open Tickets", "total", "", "50"⟩)
      = [("50", "2024-01-15 10:00:00")] ∧
    getVal (upsert_metrics "smax" [⟨"Open Tickets", "total", "", "50"⟩]
        "2024-01-15" "2024-01-15 10:05:00"
        (upsert_metrics "smax" [⟨"Open Tickets", "total", "", "42"⟩]
          "2024-01-15" "2024-01-15 10:00:00" []))
      (obsKey "smax" "2024-01-15" ⟨"Open Tickets", "total", "", "50"⟩)
      = [("50", "2024-01-15 10:05:00")] :=
  c2_last_write_wins [] List.Pairwise.nil "smax" "2024-01-15"
    [⟨"Open Tickets", "total", "", "42"⟩]
    [⟨"Closed Tickets", "total", "", "9"⟩]
    ⟨"Open Tickets", "total", "", "50"⟩
    ⟨"Open Tickets", "total", "", "42"⟩
    ⟨"Open Tickets", "total", "", "50"⟩
    "2024-01-15 10:00:00" "2024-01-15 10:00:00" "2024-01-15 10:05:00"
    (by decide) (by decide)

/-- C3 counterexample: applying the same batch twice with the two write
timestamps the two calls actually compute (`datetime.now()` differs
between runs) does not reproduce the same store state: the stored
timestamp is refreshed by the second call. -/
theorem c3_counterexample :
    upsert_metrics "smax" [⟨"Open Tickets", "total", "", "42"⟩] "2024-01-15"
        "2024-01-15 10:05:00"
        (upsert_metrics "smax" [⟨"Open Tickets", "total", "", "42"⟩]
          "2024-01-15" "2024-01-15 10:00:00" init_db)
      ≠ upsert_metrics "smax" [⟨"Open Tickets", "total", "", "42"⟩]
          "2024-01-15" "2024-01-15 10:00:00" init_db := by decide

/-- C3 (amended): applying `upsert_metrics(source, B, d)` twice in
sequence yields, after the second application, the same store state as
after the first up to the refreshed write timestamps: the rows with the
timestamp column erased are unchanged, no duplicate rows are created and
`row_count()` does not change; when both calls compute the same write
timestamp the states are literally equal. -/
theorem c3_upsert_idempotent_up_to_timestamp (src : String) (B : List Obs)
    (d ts1 ts2 : String) (s : List Row) :
    (upsert_metrics src B d ts2 (upsert_metrics src B d ts1 s)).map stripTs
      = (upsert_metrics src B d ts1 s).map stripTs ∧
    row_count (upsert_metrics src B d ts2 (upsert_metrics src B d ts1 s))
      = row_count (upsert_metrics src B d ts1 s) ∧
    (ts1 = ts2 →
      upsert_metrics src B d ts2 (upsert_metrics src B d ts1 s)
        = upsert_metrics src B d ts1 s) := by
  refine ⟨?_, ?_, ?_⟩
  · rw [upsert_twice_eq_map, List.map_map]
    exact List.map_congr_left
      (fun z hz => stripTs_applyLast_retimed src B d ts1 ts2 s z hz)
  · rw [upsert_twice_eq_map]
    unfold row_count
    rw [List.length_map]
  · intro hts
    subst hts
    exact upsertRows_idem s _

theorem c3_witness :
    (upsert_metrics "smax" [⟨"Open Tickets", "total", "", "42"⟩]
        "2024-01-15" "2024-01-15 10:05:00"
        (upsert_metrics "smax" [⟨"Open Tickets", "total", "", "42"⟩]
          "2024-01-15" "2024-01-15 10:00:00" [])).map stripTs
      = (upsert_metrics "smax" [⟨"Open Tickets", "total", "", "42"⟩]
          "2024-01-15" "2024-01-15 10:00:00" []).map stripTs ∧
    row_count (upsert_metrics "smax" [⟨"Open Tickets", "total", "", "42"⟩]
        "2024-01-15" "2024-01-15 10:05:00"
        (upsert_metrics "smax" [⟨"Open Tickets", "total", "", "42"⟩]
          "2024-01-15" "2024-01-15 10:00:00" []))
      = row_count (upsert_metrics "smax" [⟨"Open Tickets", "total", "", "42"⟩]
          "2024-01-15" "2024-01-15 10:00:00" []) ∧
    ("2024-01-15 10:00:00" = "2024-01-15 10:05:00" →
      upsert_metrics "smax" [⟨"Open Tickets", "total", "", "42"⟩]
          "2024-01-15" "2024-01-15 10:05:00"
          (upsert_metrics "smax" [⟨"Open Tickets", "total", "", "42"⟩]
            "2024-01-15" "2024-01-15 10:00:00" [])
        = upsert_metrics "smax" [⟨"Open Tickets", "total", "", "42"⟩]
            "2024-01-15" "2024-01-15 10:00:00" []) :=
  c3_upsert_idempotent_up_to_timestamp "smax"
    [⟨"Open Tickets", "total", "", "42"⟩] "2024-01-15"
    "2024-01-15 10:00:00" "2024-01-15 10:05:00" []

/-- C4: `cleanup_old_data` deletes exactly the rows whose `date` is
strictly below the retention cutoff (the string for `today - N days`):
afterwards no kept row is older than the cutoff, every row at or above the
cutoff survives unchanged (the kept rows are a sublist of the original
store), and the `VACUUM` storage-reclamation pass runs exactly when at
least one row was deleted. -/
theorem c4_retention (s : List Row) (cutoff : String) :
    (∀ r ∈ (cleanup_old_data cutoff s).1, strLtB r.date cutoff = false) ∧
    (∀ r ∈ s, strLtB r.date cutoff = false
      → r ∈ (cleanup_old_data cutoff s).1) ∧
    List.Sublist (cleanup_old_data cutoff s).1 s ∧
    ((cleanup_old_data cutoff s).2 = true
      ↔ ∃ r ∈ s, strLtB r.date cutoff = true) := by
  have h1 : (cleanup_old_data cutoff s).1
      = s.filter (fun r => !(strLtB r.date cutoff)) := rfl
  refine ⟨?_, ?_, ?_, ?_⟩
  · intro r hr
    rw [h1] at hr
    have h2 := List.of_mem_filter hr
    simpa using h2
  · intro r hr hdate
    rw [h1]
    exact List.mem_filter.mpr ⟨hr, by simp [hdate]⟩
  · rw [h1]
    exact List.filter_sublist s
  · have h2 : (cleanup_old_data cutoff s).2
        = decide (s.countP (fun r => strLtB r.date cutoff) ≠ 0) := rfl
    rw [h2]
    simp only [decide_eq_true_eq]
    constructor
    · intro hne
      exact List.countP_pos_iff.mp (Nat.pos_of_ne_zero hne)
    · intro hex
      exact Nat.pos_iff_ne_zero.mp (List.countP_pos_iff.mpr hex)

theorem c4_witness :
    (∀ r ∈ (cleanup_old_data "2024-04-20"
        ([⟨"2024-01-01", "t1", "cuic", "m", "", "", "1"⟩,
          ⟨"2024-07-14", "t2", "cuic", "m", "", "", "2"⟩] : List Row)).1,
      strLtB r.date "2024-04-20" = false) ∧
    (∀ r ∈ ([⟨"2024-01-01", "t1", "cuic", "m", "", "", "1"⟩,
             ⟨"2024-07-14", "t2", "cuic", "m", "", "", "2"⟩] : List Row),
      strLtB r.date "2024-04-20" = false
        → r ∈ (cleanup_old_data "2024-04-20"
            ([⟨"2024-01-01", "t1", "cuic", "m", "", "", "1"⟩,
              ⟨"2024-07-14", "t2", "cuic", "m", "", "", "2"⟩] : List Row)).1) ∧
    List.Sublist (cleanup_old_data "2024-04-20"
        ([⟨"2024-01-01", "t1", "cuic", "m", "", "", "1"⟩,
          ⟨"2024-07-14", "t2", "cuic", "m", "", "", "2"⟩] : List Row)).1
      ([⟨"2024-01-01", "t1", "cuic", "m", "", "", "1"⟩,
        ⟨"2024-07-14", "t2", "cuic", "m", "", "", "2"⟩] : List Row) ∧
    ((cleanup_old_data "2024-04-20"
        ([⟨"2024-01-01", "t1", "cuic", "m", "", "", "1"⟩,
          ⟨"2024-07-14", "t2", "cuic", "m", "", "", "2"⟩] : List Row)).2 = true
      ↔ ∃ r ∈ ([⟨"2024-01-01", "t1", "cuic", "m", "", "", "1"⟩,
                ⟨"2024-07-14", "t2", "cuic", "m", "", "", "2"⟩] : List Row),
          strLtB r.date "2024-04-20" = true) :=
  c4_retention
    ([⟨"2024-01-01", "t1", "cuic", "m", "", "", "1"⟩,
      ⟨"2024-07-14", "t2", "cuic", "m", "", "", "2"⟩] : List Row) "2024-04-20"

/-- C5: `has_historical_data(source, metric_title)` (with no storage
errors) returns true exactly when at least one `kpi_snapshots` row exists
for the pair and the most recent `scrape_log` entry for
`(source, report_label = metric_title)` has status `success`; in
particular it returns false whenever no scrape-log entry exists for the
pair, even if data rows exist (e.g. migrated from a flat file). -/
theorem c5_has_historical_data (db : DB) (src title : String) :
    ((has_historical_data db src title false false).1 = true
      ↔ 0 < countFor db.rows src title
        ∧ lastStatus db.log src title = some "success") ∧
    (lastStatus db.log src title = none
      → (has_historical_data db src title false false).1 = false) := by
  have hmain : (has_historical_data db src title false false).1
      = (if countFor db.rows src title = 0 then false
         else
           match lastStatus db.log src title with
           | some st => decide (st = "success")
           | none => false) := by
    unfold has_historical_data
    simp
  constructor
  · rw [hmain]
    by_cases hc : countFor db.rows src title = 0
    · rw [if_pos hc]
      simp [hc]
    · rw [if_neg hc]
      cases hls : lastStatus db.log src title with
      | none => simp
      | some st =>
        simp [Nat.pos_of_ne_zero hc]
  · intro hnone
    rw [hmain, hnone]
    by_cases hc : countFor db.rows src title = 0
    · rw [if_pos hc]
    · rw [if_neg hc]

theorem c5_witness :
    ((has_historical_data
        ⟨[⟨"2024-01-15", "t", "cuic", "call_type_hist", "", "", "5"⟩], []⟩
        "cuic" "call_type_hist" false false).1 = true
      ↔ 0 < countFor [⟨"2024-01-15", "t", "cuic", "call_type_hist", "", "", "5"⟩]
            "cuic" "call_type_hist"
        ∧ lastStatus [] "cuic" "call_type_hist" = some "success") ∧
    (lastStatus [] "cuic" "call_type_hist" = none
      → (has_historical_data
          ⟨[⟨"2024-01-15", "t", "cuic", "call_type_hist", "", "", "5"⟩], []⟩
          "cuic" "call_type_hist" false false).1 = false) :=
  c5_has_historical_data
    ⟨[⟨"2024-01-15", "t", "cuic", "call_type_hist", "", "", "5"⟩], []⟩
    "cuic" "call_type_hist"

/-- C6: evaluation at the failing input.  With an existing wide CSV whose
columns are `date, timestamp, source_name` and no data dictionary,
`process_worker_result("smax", {"new_kpi": "1"})` saves the upserted CSV
(new column added, one row written) but then hits the undefined name
`CORE_COLUMNS` inside `update_data_dictionary` — a `NameError` swallowed
by the blanket `except` — so it appends no dictionary entries and returns
`False` even though storage itself succeeded, contradicting the spec. -/
theorem c6_core_columns_name_error :
    process_worker_result "smax" [("new_kpi", "1")] "2024-01-15"
        "2024-01-15 10:00:00"
        ⟨some ⟨["date", "timestamp", "source_name"], []⟩, none⟩
      = (false,
         ⟨some ⟨["date", "timestamp", "source_name", "new_kpi"],
            [[("date", some "2024-01-15"),
              ("timestamp", some "2024-01-15 10:00:00"),
              ("source_name", some "smax"), ("new_kpi", some "1")]]⟩,
          none⟩) := by decide

/-- C7: `migrate_csv_to_db` run twice over the same parsed flat file
yields the same store state as one run, and `row_count()` is stable across
the second run. -/
theorem c7_migration_idempotent (csv s : List Row) :
    migrate_csv_to_db csv (migrate_csv_to_db csv s)
      = migrate_csv_to_db csv s ∧
    row_count (migrate_csv_to_db csv (migrate_csv_to_db csv s))
      = row_count (migrate_csv_to_db csv s) :=
  ⟨upsertRows_idem s csv, congrArg row_count (upsertRows_idem s csv)⟩

/-- C8: `query_all` returns every stored row (a permutation of the store)
ordered by `(date, source, metric_title)`; `query_by_date(start, end)`
returns exactly the rows with `date` in the inclusive interval
`[start, end]` in the same ordering, and `end` defaults to `start` when
omitted. -/
theorem c8_query_ordering (s : List Row) (startDate endDate : String) :
    (query_all s).Perm s ∧
    (query_all s).Pairwise (fun a b => rowLE a b = true) ∧
    query_by_date startDate none s
      = query_by_date startDate (some startDate) s ∧
    (query_by_date startDate (some endDate) s).Perm
      (s.filter (inRange startDate endDate)) ∧
    (query_by_date startDate (some endDate) s).Pairwise
      (fun a b => rowLE a b = true) :=
  ⟨sortBy_perm _ _, sortBy_sorted _ rowLE_total rowLE_trans _, rfl,
   sortBy_perm _ _, sortBy_sorted _ rowLE_total rowLE_trans _⟩

/-- C9: two runs of `update_data_dictionary_long` with disjoint metric
sets append only: the document grows by a suffix on each call, the final
document contains the entries of both sets, no entry written by the first
call is written again by the second (given the `strftime` shapes of the
date and time stamps), and no entry is ever written for the empty-string
identifier. -/
theorem c9_dict_append_only
    (S1 S2 : List String) (src d1 t1 d2 t2 : String)
    (file0 : Option (List String))
    (hdisj : ∀ m ∈ S1, m ∉ S2)
    (hd1 : d1.length = 10) (hd2 : d2.length = 10)
    (ht1 : t1.length = 8) (ht2 : t2.length = 8) :
    ∃ n1 n2 : List String,
      docLines (update_data_dictionary_long S1 src d1 t1 file0)
        = docLines file0 ++ n1 ∧
      docLines (update_data_dictionary_long S2 src d2 t2
          (update_data_dictionary_long S1 src d1 t1 file0))
        = docLines (update_data_dictionary_long S1 src d1 t1 file0) ++ n2 ∧
      (∀ m ∈ S1, m ≠ "" → entryLong src d1 t1 m
        ∈ docLines (update_data_dictionary_long S2 src d2 t2
            (update_data_dictionary_long S1 src d1 t1 file0))) ∧
      (∀ m ∈ S2, m ≠ "" → entryLong src d2 t2 m
        ∈ docLines (update_data_dictionary_long S2 src d2 t2
            (update_data_dictionary_long S1 src d1 t1 file0))) ∧
      (∀ m ∈ S1, entryLong src d1 t1 m ∉ n2) ∧
      entryLong src d1 t1 "" ∉ n1 ∧
      entryLong src d2 t2 "" ∉ n2 := by
  obtain ⟨n1, he1, hm1, hc1⟩ := update_dict_shape S1 src d1 t1 file0
  obtain ⟨n2, he2, hm2, hc2⟩ := update_dict_shape S2 src d2 t2
    (update_data_dictionary_long S1 src d1 t1 file0)
  refine ⟨n1, n2, he1, he2, ?_, ?_, ?_, ?_, ?_⟩
  · intro m hm hne
    rw [he2]
    refine List.mem_append_left _ ?_
    rw [he1]
    exact List.mem_append_right _ (hm1 m hm hne)
  · intro m hm hne
    rw [he2]
    exact List.mem_append_right _ (hm2 m hm hne)
  · intro m hm hmem
    rcases hc2 _ hmem with hhdr | ⟨m2, hm2S, _, heq⟩
    · exact (entryLong_ne_header hhdr) rfl
    · obtain ⟨hmm, _, _⟩ :=
        entryLong_inj (hd1.trans hd2.symm) (ht1.trans ht2.symm) heq
      exact hdisj m hm (hmm ▸ hm2S)
  · intro hmem
    rcases hc1 _ hmem with hhdr | ⟨m2, _, hm2ne, heq⟩
    · exact (entryLong_ne_header hhdr) rfl
    · obtain ⟨hmm, _, _⟩ := entryLong_inj rfl rfl heq
      exact hm2ne hmm.symm
  · intro hmem
    rcases hc2 _ hmem with hhdr | ⟨m2, _, hm2ne, heq⟩
    · exact (entryLong_ne_header hhdr) rfl
    · obtain ⟨hmm, _, _⟩ := entryLong_inj rfl rfl heq
      exact hm2ne hmm.symm

theorem c9_witness :
    ∃ n1 n2 : List String,
      docLines (update_data_dictionary_long ["alpha"] "smax" "2024-01-15"
          "10:00:00" none)
        = docLines none ++ n1 ∧
      docLines (update_data_dictionary_long ["beta"] "smax" "2024-01-16"
          "11:00:00"
          (update_data_dictionary_long ["alpha"] "smax" "2024-01-15"
            "10:00:00" none))
        = docLines (update_data_dictionary_long ["alpha"] "smax"
            "2024-01-15" "10:00:00" none) ++ n2 ∧
      (∀ m ∈ ["alpha"], m ≠ "" → entryLong "smax" "2024-01-15" "10:00:00" m
        ∈ docLines (update_data_dictionary_long ["beta"] "smax" "2024-01-16"
            "11:00:00"
            (update_data_dictionary_long ["alpha"] "smax" "2024-01-15"
              "10:00:00" none))) ∧
      (∀ m ∈ ["beta"], m ≠ "" → entryLong "smax" "2024-01-16" "11:00:00" m
        ∈ docLines (update_data_dictionary_long ["beta"] "smax" "2024-01-16"
            "11:00:00"
            (update_data_dictionary_long ["alpha"] "smax" "2024-01-15"
              "10:00:00" none))) ∧
      (∀ m ∈ ["alpha"], entryLong "smax" "2024-01-15" "10:00:00" m ∉ n2) ∧
      entryLong "smax" "2024-01-15" "10:00:00" "" ∉ n1 ∧
      entryLong "smax" "2024-01-16" "11:00:00" "" ∉ n2 :=
  c9_dict_append_only ["alpha"] ["beta"] "smax" "2024-01-15" "10:00:00"
    "2024-01-16" "11:00:00" none (by decide) (by decide) (by decide)
    (by decide) (by decide)

/-- C10: the scrape-log read operations never propagate a storage
exception: when the underlying query raises, `get_scrape_log` and
`get_latest_scrape_status` return the empty list and
`has_historical_data` returns false, and in every case (error or not) the
database state is returned unchanged. -/
theorem c10_reads_swallow_errors (db : DB) (limit : Nat)
    (src title : String) (e1 e2 e3 e4 : Bool) :
    get_scrape_log db limit true = ([], db) ∧
    get_latest_scrape_status db true = ([], db) ∧
    ((e1 = true ∨ e2 = true)
      → has_historical_data db src title e1 e2 = (false, db)) ∧
    (get_scrape_log db limit e3).2 = db ∧
    (get_latest_scrape_status db e4).2 = db ∧
    (has_historical_data db src title e1 e2).2 = db := by
  refine ⟨rfl, rfl, ?_, rfl, rfl, rfl⟩
  intro h
  rcases h with rfl | rfl
  · rfl
  · cases e1 with
    | true => rfl
    | false =>
      unfold has_historical_data
      by_cases hc : countFor db.rows src title = 0
      · simp [hc]
      · simp [hc]

theorem c10_witness :
    get_scrape_log ⟨[], []⟩ 100 true = ([], ⟨[], []⟩) ∧
    get_latest_scrape_status ⟨[], []⟩ true = ([], ⟨[], []⟩) ∧
    ((true = true ∨ true = true)
      → has_historical_data ⟨[], []⟩ "cuic" "call_type_hist" true true
          = (false, ⟨[], []⟩)) ∧
    (get_scrape_log ⟨[], []⟩ 100 false).2 = ⟨[], []⟩ ∧
    (get_latest_scrape_status ⟨[], []⟩ false).2 = ⟨[], []⟩ ∧
    (has_historical_data ⟨[], []⟩ "cuic" "call_type_hist" true true).2
      = ⟨[], []⟩ :=
  c10_reads_swallow_errors ⟨[], []⟩ 100 "cuic" "call_type_hist"
    true true false false

end KpiAgg
